import Mathlib

/-!
Verification of the napari-ome-zarr reader (`src/napari_ome_zarr/_reader.py`)
against its specification.

The module's core is the per-node layer transformation: channel-axis
detection, affine reduction, colormap normalization and property
reshaping.  We embed the Python code shallowly:

* Python values stored in metadata dictionaries become `PyVal`;
* Python dicts become association lists with Python assignment semantics
  (`dset` replaces the first binding in place, else appends — matching
  CPython's insertion-order preserving dicts);
* numpy/dask pixel arrays become finite rose trees (`Tensor`);
* code that can raise returns `Except String _`; the per-key
  `try/except: pass` swallow becomes `Option`.
-/

/-- A Python runtime value as it appears in node metadata.
`cmap` models a realized `vispy.color.Colormap` object built from inline
color-stop data; `cmapNamed` models the object returned by
`vispy.color.get_colormap(name)`; `mat` models a 2-D numpy array (the
affine matrices); `sdict` models a string-keyed dict value. -/
inductive PyVal where
  | none
  | int (n : Int)
  | str (s : String)
  | list (xs : List PyVal)
  | mat (rows : List (List Int))
  | cmap (spec : PyVal)
  | cmapNamed (s : String)
  | sdict (xs : List (String × PyVal))

/-- An n-dimensional pixel array (numpy/dask array), as a rose tree:
a scalar is 0-dimensional, `arr xs` adds one leading dimension. -/
inductive Tensor where
  | scalar (x : Int)
  | arr (xs : List Tensor)

/-- Shape `a.shape` of a numpy array: the extent of each dimension, read off the
first element at every level. -/
def Tensor.shape : Tensor → List Nat
  | Tensor.scalar _ => []
  | Tensor.arr [] => [0]
  | Tensor.arr (t :: ts) => (ts.length + 1) :: Tensor.shape t

/-- Map a partial function over a list, failing at the first failure
(the behavior of a Python loop that raises). -/
def optionMap {α β : Type} (f : α → Option β) : List α → Option (List β)
  | [] => Option.some []
  | a :: as =>
      match f a with
      | Option.none => Option.none
      | Option.some b =>
          match optionMap f as with
          | Option.none => Option.none
          | Option.some bs => Option.some (b :: bs)

/-- Map a fallible function over a list, stopping at the first raised
exception (the behavior of a Python loop that raises). -/
def exceptMap {α β : Type} (f : α → Except String β) : List α → Except String (List β)
  | [] => Except.ok []
  | a :: as =>
      match f a with
      | Except.error e => Except.error e
      | Except.ok b =>
          match exceptMap f as with
          | Except.error e => Except.error e
          | Except.ok bs => Except.ok (b :: bs)

/-- Selection `d[:, 0, ...]`: select index 0 along dimension 1, dropping that
dimension.  `Option.none` models the `IndexError`/`too many indices`
exceptions numpy raises when a sub-array is empty or 0-dimensional. -/
def Tensor.sel10 : Tensor → Option Tensor
  | Tensor.scalar _ => Option.none
  | Tensor.arr xs =>
      (optionMap (fun t => match t with
        | Tensor.arr (y :: _) => Option.some y
        | _ => Option.none) xs).map Tensor.arr

/-- A Python dict with string keys, as an insertion-ordered association
list. -/
abbrev Meta := List (String × PyVal)

/-- Python dict assignment `d[k] = v`: replace the value of an existing
binding in place (keeping its position), else append a new binding. -/
def dset {α : Type} : List (String × α) → String → α → List (String × α)
  | [], k, v => [(k, v)]
  | (k', v') :: rest, k, v =>
      if k' = k then (k', v) :: rest else (k', v') :: dset rest k v

/-- Python dict lookup `d.get(k)` / `k in d`: first binding wins. -/
def dget? {α : Type} : List (String × α) → String → Option α
  | [], _ => Option.none
  | (k', v') :: rest, k => if k' = k then Option.some v' else dget? rest k

theorem dget_dset_self {α : Type} (d : List (String × α)) (k : String) (v : α) :
    dget? (dset d k v) k = Option.some v := by
  induction d with
  | nil => simp [dset, dget?]
  | cons kv rest ih =>
      obtain ⟨k', v'⟩ := kv
      by_cases h : k' = k <;> simp [dset, dget?, h, ih]

theorem dget_dset_ne {α : Type} (d : List (String × α)) (k k' : String) (v : α)
    (h : k' ≠ k) : dget? (dset d k v) k' = dget? d k' := by
  have hkk : ¬ (k = k') := fun hh => h hh.symm
  induction d with
  | nil => simp [dset, dget?, hkk]
  | cons kv rest ih =>
      obtain ⟨k₀, v₀⟩ := kv
      by_cases h0 : k₀ = k
      · have h2 : ¬ (k₀ = k') := by rw [h0]; exact hkk
        simp [dset, dget?, h0, h2, hkk]
      · by_cases h1 : k₀ = k'
        · simp [dset, dget?, h0, h1, h, hkk]
        · simp [dset, dget?, h0, h1, ih]

theorem dset_same_value {α : Type} (d : List (String × α)) (k : String) (v : α)
    (h : dget? d k = Option.some v) : dset d k v = d := by
  induction d with
  | nil => simp [dget?] at h
  | cons kv rest ih =>
      obtain ⟨k₀, v₀⟩ := kv
      by_cases h0 : k₀ = k
      · subst h0
        simp [dget?] at h
        simp [dset, h]
      · simp [dget?, h0] at h
        simp [dset, h0, ih h]

theorem dset_keys {α : Type} (d : List (String × α)) (k : String) (v : α) :
    (dset d k v).map Prod.fst =
      if k ∈ d.map Prod.fst then d.map Prod.fst else d.map Prod.fst ++ [k] := by
  induction d with
  | nil => simp [dset]
  | cons kv rest ih =>
      obtain ⟨k₀, v₀⟩ := kv
      by_cases h0 : k₀ = k
      · subst h0; simp [dset]
      · have h2 : ¬ (k = k₀) := fun hh => h0 hh.symm
        simp [dset, h0, ih, h2]
        by_cases hm : k ∈ rest.map Prod.fst <;> simp [hm, h2]

/-- Lookup `props_dict.get(key, None)`: lookup with Python's `None` default. -/
def pget (pd : List (String × PyVal)) (k : String) : PyVal :=
  match dget? pd k with
  | Option.some v => v
  | Option.none => PyVal.none

/-- The function `transform_properties` (_reader.py lines 51-82): reshape a dict
`{label_id: {key: value, ...}, ...}` into a columnar dict with one list
per key plus an `"index"` list of the label ids.  The input dict is an
insertion-ordered association list from label id to sub-dict. -/
def transform_properties (props : Option (List (PyVal × List (String × PyVal)))) :
    Option (List (String × List PyVal)) :=
  match props with
  | Option.none => Option.none
  | Option.some ps =>
      -- First, create lists for all existing keys...
      let d0 : List (String × List PyVal) :=
        ps.foldl (fun d p => p.2.foldl (fun d kv => dset d kv.1 []) d) []
      let keys := d0.map Prod.fst
      let d1 := dset d0 "index" []
      -- ...in case some objects don't have all the keys
      Option.some (ps.foldl (fun d p =>
        let d' := dset d "index" (((dget? d "index").getD []) ++ [p.1])
        keys.foldl (fun d k => dset d k (((dget? d k).getD []) ++ [pget p.2 k])) d') d1)

example :
    transform_properties (Option.some
      [(PyVal.str "a", [("x", PyVal.int 1), ("y", PyVal.int 2)]),
       (PyVal.str "b", [("x", PyVal.int 3)])]) =
    Option.some
      [("x", [PyVal.int 1, PyVal.int 3]),
       ("y", [PyVal.int 2, PyVal.none]),
       ("index", [PyVal.str "a", PyVal.str "b"])] := rfl

/-- The test `isinstance(cm, Colormap)` over our value model. -/
def isCM : PyVal → Bool
  | PyVal.cmap _ => true
  | PyVal.cmapNamed _ => true
  | _ => false

/-- Names registered in vispy's colormap registry (`_colormaps`), the
domain of `get_colormap`: looking up any other name raises `KeyError`.
Abridged to a representative subset of the real registry; in particular
`"reds"` is registered while `"red"` is not. -/
def vispyColormapNames : List String :=
  ["autumn", "blues", "cool", "coolwarm", "cubehelix", "diverging", "fire",
   "grays", "greens", "hot", "hsl", "husl", "ice", "light_blues", "orange",
   "reds", "single_hue", "spring", "summer", "viridis", "winter"]

/-- One entry of the colormap-normalization loop (line 150): an entry that
is already a `Colormap` is kept; a string is looked up in vispy's registry
by `get_colormap(name)`, which raises `KeyError` for unregistered names;
list or array color-stop data is realized via the `Colormap` constructor;
scalars and `None` make the constructor raise. -/
def realize1 : PyVal → Except String PyVal
  | PyVal.cmap v => Except.ok (PyVal.cmap v)
  | PyVal.cmapNamed s => Except.ok (PyVal.cmapNamed s)
  | PyVal.str s =>
      if s ∈ vispyColormapNames then Except.ok (PyVal.cmapNamed s)
      else Except.error "KeyError: colormap name is not registered"
  | PyVal.list xs => Except.ok (PyVal.cmap (PyVal.list xs))
  | PyVal.mat m => Except.ok (PyVal.cmap (PyVal.mat m))
  | _ => Except.error "ValueError: invalid colormap data"

/-- The colormap-normalization pass (lines 147-150) over a list of
entries: realize each entry in place. -/
def normCMList (cs : List PyVal) : Except String (List PyVal) :=
  exceptMap realize1 cs

/-- Normalizing the value bound to `"colormap"` in the output metadata
(lines 147-150): `for idx, cm in enumerate(cms): ... cms[idx] = ...`.
Lists are updated entry-wise in place; a non-empty string raises (its
single-character entries are not registered colormap names, so
`get_colormap` raises `KeyError`, and `str` would reject the item
assignment in any case); a non-empty numpy array raises at the item
assignment; non-iterable values raise at `enumerate`. -/
def normalizeCMVal : PyVal → Except String PyVal
  | PyVal.list xs => (normCMList xs).map PyVal.list
  | PyVal.str s =>
      if s = "" then Except.ok (PyVal.str "")
      else Except.error "TypeError: str does not support item assignment"
  | PyVal.mat [] => Except.ok (PyVal.mat [])
  | PyVal.mat (_ :: _) =>
      Except.error "ValueError: cannot assign object into numeric array"
  | _ => Except.error "TypeError: colormap value is not iterable"

/-- Subscript `v[0]` as used by the single-channel metadata extraction (line 142);
`Option.none` stands for any raised exception (swallowed by the bare
`except` on line 143). -/
def pyIndex0 : PyVal → Option PyVal
  | PyVal.list (x :: _) => Option.some x
  | PyVal.str s =>
      match s.toList with
      | [] => Option.none
      | c :: _ => Option.some (PyVal.str (String.mk [c]))
  | PyVal.mat (r :: _) => Option.some (PyVal.list (r.map PyVal.int))
  | _ => Option.none

/-- Line 30: the recognized pass-through display keys. -/
def METADATA_KEYS : List String :=
  ["name", "visible", "contrast_limits", "colormap", "metadata", "affine", "blending"]

/-- The shape shared by the three metadata-copy loops
(`for x in METADATA_KEYS: if ...: metadata[x] = ...`): fold over the keys,
binding `x` when the per-key extraction `g x` produces a value. -/
def copyFold (g : String → Option PyVal) (l : List String) (init : Meta) : Meta :=
  l.foldl (fun acc x =>
    match g x with
    | Option.some w => dset acc x w
    | Option.none => acc) init

theorem copyFold_cons (g : String → Option PyVal) (x : String) (xs : List String)
    (init : Meta) :
    copyFold g (x :: xs) init =
      copyFold g xs (match g x with
        | Option.some w => dset init x w
        | Option.none => init) := rfl

theorem copyFold_not_mem (g : String → Option PyVal) (l : List String)
    (k : String) : ∀ (init : Meta), k ∉ l →
    dget? (copyFold g l init) k = dget? init k := by
  induction l with
  | nil => intro init _; rfl
  | cons x xs ih =>
      intro init hk
      have hx : k ≠ x := fun hh => hk (hh ▸ List.mem_cons_self x xs)
      have hxs : k ∉ xs := fun hh => hk (List.mem_cons_of_mem _ hh)
      rw [copyFold_cons]
      cases hg : g x with
      | none => exact ih init hxs
      | some w => rw [ih _ hxs, dget_dset_ne _ _ _ _ hx]

theorem copyFold_mem (g : String → Option PyVal) (l : List String)
    (k : String) (hnd : l.Nodup) : ∀ (init : Meta), k ∈ l →
    dget? (copyFold g l init) k =
      match g k with
      | Option.some w => Option.some w
      | Option.none => dget? init k := by
  induction l with
  | nil => intro init hk; cases hk
  | cons x xs ih =>
      intro init hk
      have hpair := List.nodup_cons.mp hnd
      rw [copyFold_cons]
      rcases List.mem_cons.mp hk with h | h
      · subst h
        rw [copyFold_not_mem _ _ _ _ hpair.1]
        cases hg : g k with
        | none => simp
        | some w => simp [dget_dset_self]
      · have hne : k ≠ x := fun hh => hpair.1 (hh ▸ h)
        cases hg : g x with
        | none => exact ih hpair.2 init h
        | some w =>
            rw [ih hpair.2 (dset init x w) h]
            cases hgk : g k with
            | none => simp [dget_dset_ne _ _ _ _ hne]
            | some u => simp

/-- The fixed legacy channel dimension index, from the external
collaborator `ome_zarr.data.CHANNEL_DIMENSION`. -/
def CHANNEL_DIMENSION : Nat := 1

/-- A hierarchy node as produced by the Node Reader collaborator
(`ome_zarr.reader`).  `isLabel` models the `node.load(Label)` capability
test; `axes` models `node.metadata["axes"]` (a list of axis-name strings,
when present); `props` models `node.metadata.get("properties")`.  The
keys `"axes"` and `"properties"` are not in `METADATA_KEYS` and are read
only through these two accesses, so they are kept as separate fields; the
display metadata (including `"affine"` and `"colormap"`) lives in
`metadata`. -/
structure Node where
  data : Option (List Tensor)
  isLabel : Bool
  axes : Option (List String)
  props : Option (List (PyVal × List (String × PyVal)))
  metadata : Meta

/-- An output record `(data, metadata, layer_type)` (line 156). -/
structure LayerData where
  data : List Tensor
  metadata : Meta
  layer_type : String

/-- Channel-axis detection for image nodes (lines 116-123). -/
def detectChannel (axes : Option (List String)) (shape : List Nat) :
    Except String (Option Nat) :=
  match axes with
  | Option.some ax =>
      -- version 0.3 or greater
      if "c" ∈ ax then Except.ok (Option.some (ax.findIdx (fun s => s = "c")))
      else Except.ok Option.none
  | Option.none =>
      -- versions of ome-zarr-py before v0.3
      match shape.get? CHANNEL_DIMENSION with
      | Option.some s =>
          if 1 < s then Except.ok (Option.some CHANNEL_DIMENSION)
          else Except.ok Option.none
      | Option.none => Except.error "IndexError: tuple index out of range"

/-- Reduction of an affine value by the boolean-mask operation
`affine[dim_mask, :][:, dim_mask]` with `dim_mask = [True] * 6;
dim_mask[ca] = False` (lines 111-113 and 134-136).  Python raises if
`ca ≥ 6` (at the list assignment), if the value is not a 2-D array, or if
either of its extents is not 6 (mask length mismatch). -/
def reduceAffineVal (av : PyVal) (ca : Nat) : Except String PyVal :=
  if ca < 6 then
    match av with
    | PyVal.mat m =>
        if m.length = 6 then
          if ∀ r ∈ m, r.length = 6 then
            Except.ok (PyVal.mat ((m.eraseIdx ca).map (fun r => r.eraseIdx ca)))
          else Except.error "IndexError: boolean index did not match"
        else Except.error "IndexError: boolean index did not match"
    | _ => Except.error "TypeError: value does not support mask indexing"
  else Except.error "IndexError: list assignment index out of range"

theorem reduceAffineVal_mat_ok (m : List (List Int)) (ca : Nat) (av' : PyVal)
    (h : reduceAffineVal (PyVal.mat m) ca = Except.ok av') :
    ca < 6 ∧ m.length = 6 ∧ (∀ r ∈ m, r.length = 6) ∧
      av' = PyVal.mat ((m.eraseIdx ca).map (fun r => r.eraseIdx ca)) := by
  by_cases hca : ca < 6
  · by_cases h6 : m.length = 6
    · by_cases hr : ∀ r ∈ m, r.length = 6
      · simp only [reduceAffineVal, if_pos hca, if_pos h6, if_pos hr] at h
        cases h
        exact ⟨hca, h6, hr, rfl⟩
      · simp [reduceAffineVal, hca, h6, hr] at h
    · simp [reduceAffineVal, hca, h6] at h
  · simp [reduceAffineVal, hca] at h

/-- Copy the recognized display keys verbatim (lines 101-103 and
128-130). -/
def copyKeys (nodeMd : Meta) (init : Meta) : Meta :=
  copyFold (fun x => dget? nodeMd x) METADATA_KEYS init

/-- Copy the recognized display keys taking element `[0]` of each value,
swallowing every per-key failure (lines 138-144). -/
def singleChannelCopy (nodeMd : Meta) : Meta :=
  copyFold (fun x => (dget? nodeMd x).bind pyIndex0) METADATA_KEYS []

/-- The test `metadata.get("affine") is not None` (line 131). -/
def getNotNone (md : Meta) (k : String) : Option PyVal :=
  match dget? md k with
  | Option.some PyVal.none => Option.none
  | Option.some v => Option.some v
  | Option.none => Option.none

/-- Result of processing one node inside the loop of `transform`'s inner
function `f` (lines 89-158): the node is skipped (absent or empty data),
or yields an output record together with the node's metadata as it stands
after the call (the normalization loop mutates the node's own colormap
list in place), or raises. -/
inductive StepResult where
  | skip
  | ok (rv : LayerData) (post : Meta)
  | err (e : String)

/-- The value attached under the `"properties"` key of the output
metadata (lines 152-154). -/
def propsToVal (cols : List (String × List PyVal)) : PyVal :=
  PyVal.sdict (cols.map (fun kv => (kv.1, PyVal.list kv.2)))

/-- The effect on the node's stored colormap value of the in-place writes
into its element `[0]` (single-channel path): only a list head cell can
be written through; in every other case that the loop completes without
raising, the element is left unchanged. -/
def replaceIdx0 (v e' : PyVal) : PyVal :=
  match v with
  | PyVal.list (_ :: rest) => PyVal.list (e' :: rest)
  | w => w

/-- The node's stored metadata after the normalization loop ran on the
output value `cms'`: the loop's in-place entry assignments reach the
node's own colormap value through the alias.  `aw` (alias-whole) is true
on the label and multi-channel paths, where `metadata["colormap"]` is the
node's own colormap object (the copy loops copy references); on the
single-channel path it is that object's element `[0]`, so the writes land
in the head cell of the node's list (when it has one). -/
def finishPost (n : Node) (aw : Bool) (cms' : PyVal) : Meta :=
  match dget? n.metadata "colormap" with
  | Option.none => n.metadata
  | Option.some v =>
      if aw then dset n.metadata "colormap" cms'
      else dset n.metadata "colormap" (replaceIdx0 v cms')

/-- Common tail of the per-node transformation (lines 146-158): colormap
normalization, property reshaping, record construction.  Returns the
record together with the node's metadata after the call. -/
def finishStep (n : Node) (md : Meta) (data : List Tensor) (lt : String)
    (aw : Bool) : StepResult :=
  match dget? md "colormap" with
  | Option.none =>
      -- cms = [] (the `.get` default): the loop does nothing
      match transform_properties n.props with
      | Option.none => StepResult.ok ⟨data, md, lt⟩ n.metadata
      | Option.some cols =>
          StepResult.ok ⟨data, dset md "properties" (propsToVal cols), lt⟩ n.metadata
  | Option.some cms =>
      match normalizeCMVal cms with
      | Except.error e => StepResult.err e
      | Except.ok cms' =>
          match transform_properties n.props with
          | Option.none =>
              StepResult.ok ⟨data, dset md "colormap" cms', lt⟩ (finishPost n aw cms')
          | Option.some cols =>
              StepResult.ok
                ⟨data, dset (dset md "colormap" cms') "properties" (propsToVal cols), lt⟩
                (finishPost n aw cms')

/-- Processing of one node by `transform`'s inner function `f`
(lines 89-158). -/
def processNode (n : Node) : StepResult :=
  match n.data with
  | Option.none => StepResult.skip
  | Option.some [] => StepResult.skip
  | Option.some (d0 :: ds) =>
      if n.isLabel then
        -- labels (lines 100-114)
        if d0.shape.length = 5 then
          -- dirty fix for issue with napari 0.4.11 (lines 104-114)
          match dget? (copyKeys n.metadata []) "affine" with
          | Option.none => StepResult.err "KeyError: affine"
          | Option.some av =>
              match reduceAffineVal av 1 with
              | Except.error e => StepResult.err e
              | Except.ok av' =>
                  match optionMap Tensor.sel10 (d0 :: ds) with
                  | Option.none => StepResult.err "IndexError: index 0 out of bounds"
                  | Option.some data' =>
                      finishStep n (dset (copyKeys n.metadata []) "affine" av')
                        data' "labels" true
        else finishStep n (copyKeys n.metadata []) (d0 :: ds) "labels" true
      else
        -- image (lines 115-144)
        match detectChannel n.axes d0.shape with
        | Except.error e => StepResult.err e
        | Except.ok (Option.some ca) =>
            -- multi-channel (lines 125-136)
            match getNotNone
                (copyKeys n.metadata (dset [] "channel_axis" (PyVal.int (ca : Int))))
                "affine" with
            | Option.none =>
                finishStep n
                  (copyKeys n.metadata (dset [] "channel_axis" (PyVal.int (ca : Int))))
                  (d0 :: ds) "image" true
            | Option.some av =>
                match reduceAffineVal av ca with
                | Except.error e => StepResult.err e
                | Except.ok av' =>
                    finishStep n
                      (dset
                        (copyKeys n.metadata
                          (dset [] "channel_axis" (PyVal.int (ca : Int))))
                        "affine" av')
                      (d0 :: ds) "image" true
        | Except.ok Option.none =>
            -- single channel (lines 137-144)
            finishStep n (singleChannelCopy n.metadata) (d0 :: ds) "image" false

/-- The data test `not (data is None or len(data) < 1)` (line 92). -/
def hasData (n : Node) : Bool :=
  match n.data with
  | Option.some (_ :: _) => true
  | _ => false

/-- The loop of `transform`'s inner function `f` over the iterator's
remaining nodes, carrying the accumulated `results` list; returns the
outcome and the nodes left unconsumed in the shared iterator. -/
def fRun : List Node → List LayerData → Except String (List LayerData) × List Node
  | [], acc => (Except.ok acc, [])
  | n :: rest, acc =>
      match processNode n with
      | StepResult.skip => fRun rest acc
      | StepResult.ok rv _ => fRun rest (acc ++ [rv])
      | StepResult.err e => (Except.error e, rest)

/-- One invocation of the reader function returned by `transform`
(lines 85-162), on the iterator's current state. -/
def transformCall (nodes : List Node) : Except String (List LayerData) :=
  (fRun nodes []).1

/-- Argument to `napari_get_reader`: a single path or a list of paths. -/
inductive PathArg where
  | single (p : String)
  | listOf (ps : List String)

/-- Observable outcome of `napari_get_reader` (lines 33-48), with the
path resolver `parse_url` abstracted as a boolean validity test: whether
a reader function was returned, the warnings issued, and the trace of
arguments the resolver was invoked with. -/
structure ReaderResult where
  gotReader : Bool
  warnings : List String
  resolverCalls : List String

/-- The hook `napari_get_reader` (lines 33-48): a list argument is replaced by its
first element, with a warning when more entries are present; `path[0]`
raises on an empty list; `parse_url` is then invoked exactly once. -/
def napari_get_reader (parse_url : String → Bool) (path : PathArg) :
    Except String ReaderResult :=
  match path with
  | PathArg.single p => Except.ok ⟨parse_url p, [], [p]⟩
  | PathArg.listOf ps =>
      let ws :=
        if ps.length > 1 then ["more than one path is not currently supported"]
        else []
      match ps with
      | [] => Except.error "IndexError: list index out of range"
      | p :: _ => Except.ok ⟨parse_url p, ws, [p]⟩

theorem METADATA_KEYS_nodup : METADATA_KEYS.Nodup := by decide

theorem colormap_mem_keys : "colormap" ∈ METADATA_KEYS := by decide

theorem affine_mem_keys : "affine" ∈ METADATA_KEYS := by decide

theorem channel_axis_not_mem_keys : "channel_axis" ∉ METADATA_KEYS := by decide

theorem copyKeys_channel_axis (nm init : Meta) :
    dget? (copyKeys nm init) "channel_axis" = dget? init "channel_axis" :=
  copyFold_not_mem _ METADATA_KEYS "channel_axis" init channel_axis_not_mem_keys

theorem singleChannelCopy_channel_axis (nm : Meta) :
    dget? (singleChannelCopy nm) "channel_axis" = Option.none :=
  copyFold_not_mem _ METADATA_KEYS "channel_axis" [] channel_axis_not_mem_keys

theorem copyKeys_affine (nm init : Meta) :
    dget? (copyKeys nm init) "affine" =
      match dget? nm "affine" with
      | Option.some v => Option.some v
      | Option.none => dget? init "affine" :=
  copyFold_mem _ METADATA_KEYS "affine" METADATA_KEYS_nodup init affine_mem_keys

theorem copyKeys_colormap_eq (nm init : Meta)
    (hinit : dget? init "colormap" = Option.none) :
    dget? (copyKeys nm init) "colormap" = dget? nm "colormap" := by
  have h := copyFold_mem (fun x => dget? nm x) METADATA_KEYS "colormap"
    METADATA_KEYS_nodup init colormap_mem_keys
  rw [copyKeys, h]
  cases hv : dget? nm "colormap" with
  | none => simpa [hv] using hinit
  | some v => simp [hv]

theorem singleChannelCopy_colormap (nm : Meta) :
    dget? (singleChannelCopy nm) "colormap" =
      (dget? nm "colormap").bind pyIndex0 := by
  have h := copyFold_mem (fun x => (dget? nm x).bind pyIndex0) METADATA_KEYS
    "colormap" METADATA_KEYS_nodup [] colormap_mem_keys
  rw [singleChannelCopy, h]
  cases hv : (dget? nm "colormap").bind pyIndex0 with
  | none => simp [hv, dget?]
  | some w => simp [hv]

theorem realize1_isCM (e : PyVal) (h : isCM e = true) : realize1 e = Except.ok e := by
  cases e <;> first | rfl | simp [isCM] at h

theorem normCMList_realized (cs : List PyVal) (h : ∀ e ∈ cs, isCM e = true) :
    normCMList cs = Except.ok cs := by
  induction cs with
  | nil => rfl
  | cons e es ih =>
      have he := h e (List.mem_cons_self e es)
      have hes : ∀ x ∈ es, isCM x = true := fun x hx => h x (List.mem_cons_of_mem _ hx)
      have hrec : normCMList es = Except.ok es := ih hes
      simp [normCMList, exceptMap, realize1_isCM e he] at hrec ⊢
      simp [hrec]

theorem finishStep_ne_skip (n : Node) (md : Meta) (data : List Tensor) (lt : String)
    (aw : Bool) : finishStep n md data lt aw ≠ StepResult.skip := by
  unfold finishStep
  repeat' split
  all_goals exact fun h => StepResult.noConfusion h

theorem finishStep_ok_meta (n : Node) (md : Meta) (data : List Tensor) (lt : String)
    (aw : Bool) (rv : LayerData) (post : Meta)
    (h : finishStep n md data lt aw = StepResult.ok rv post) (k : String)
    (hk1 : k ≠ "colormap") (hk2 : k ≠ "properties") :
    dget? rv.metadata k = dget? md k := by
  unfold finishStep at h
  repeat' split at h
  all_goals cases h
  all_goals simp [dget_dset_ne _ _ _ _ hk1, dget_dset_ne _ _ _ _ hk2]

theorem finishStep_data_type (n : Node) (md : Meta) (data : List Tensor) (lt : String)
    (aw : Bool) (rv : LayerData) (post : Meta)
    (h : finishStep n md data lt aw = StepResult.ok rv post) :
    rv.data = data ∧ rv.layer_type = lt := by
  unfold finishStep at h
  repeat' split at h
  all_goals cases h
  all_goals exact ⟨rfl, rfl⟩

theorem finishPost_frame (n : Node) (aw : Bool) (cms' : PyVal) (k : String)
    (hk : k ≠ "colormap") : dget? (finishPost n aw cms') k = dget? n.metadata k := by
  unfold finishPost
  repeat' split
  all_goals simp [dget_dset_ne _ _ _ _ hk]

theorem finishStep_post_frame (n : Node) (md : Meta) (data : List Tensor) (lt : String)
    (aw : Bool) (rv : LayerData) (post : Meta)
    (h : finishStep n md data lt aw = StepResult.ok rv post) :
    (∀ k, k ≠ "colormap" → dget? post k = dget? n.metadata k) ∧
      (dget? n.metadata "colormap" = Option.none → post = n.metadata) := by
  unfold finishStep at h
  repeat' split at h
  all_goals cases h
  all_goals constructor
  · intro k hk; rfl
  · intro _; rfl
  · intro k hk; rfl
  · intro _; rfl
  · intro k hk; exact finishPost_frame n aw _ k hk
  · intro hcm; simp [finishPost, hcm]
  · intro k hk; exact finishPost_frame n aw _ k hk
  · intro hcm; simp [finishPost, hcm]

theorem processNode_skip_iff (n : Node) :
    processNode n = StepResult.skip ↔ hasData n = false := by
  constructor
  · intro h
    cases hd : n.data with
    | none => simp [hasData, hd]
    | some l =>
        cases l with
        | nil => simp [hasData, hd]
        | cons d0 ds =>
            exfalso
            unfold processNode at h
            simp only [hd] at h
            repeat' split at h
            all_goals first
              | exact finishStep_ne_skip _ _ _ _ _ h
              | cases h
  · intro h
    cases hd : n.data with
    | none => simp [processNode, hd]
    | some l =>
        cases l with
        | nil => simp [processNode, hd]
        | cons d0 ds => simp [hasData, hd] at h

/-- What a data-carrying node contributes: its output record, or the
exception it raises. -/
def recOf (n : Node) : Except String LayerData :=
  match processNode n with
  | StepResult.ok rv _ => Except.ok rv
  | StepResult.err e => Except.error e
  | StepResult.skip => Except.error "skipped"

theorem exceptMap_length {α β : Type} (f : α → Except String β) :
    ∀ (l : List α) (out : List β), exceptMap f l = Except.ok out →
      out.length = l.length := by
  intro l
  induction l with
  | nil =>
      intro out h
      simp only [exceptMap] at h
      cases h
      rfl
  | cons a as ih =>
      intro out h
      simp only [exceptMap] at h
      cases hf : f a with
      | error e => simp [hf] at h
      | ok b =>
          simp only [hf] at h
          cases hr : exceptMap f as with
          | error e => simp [hr] at h
          | ok bs =>
              simp only [hr] at h
              cases h
              simp [ih bs hr]

theorem fRun_ok_spec : ∀ (nodes : List Node) (acc rs : List LayerData)
    (rem : List Node), fRun nodes acc = (Except.ok rs, rem) →
    rem = [] ∧ ∃ tail, rs = acc ++ tail ∧
      exceptMap recOf (nodes.filter (fun n => hasData n)) = Except.ok tail := by
  intro nodes
  induction nodes with
  | nil =>
      intro acc rs rem h
      simp only [fRun] at h
      cases h
      exact ⟨rfl, [], by simp, rfl⟩
  | cons n rest ih =>
      intro acc rs rem h
      simp only [fRun] at h
      cases hp : processNode n with
      | skip =>
          simp only [hp] at h
          have hnd : hasData n = false := (processNode_skip_iff n).mp hp
          obtain ⟨h1, tail, h2, h3⟩ := ih acc rs rem h
          exact ⟨h1, tail, h2, by simp [hnd, h3]⟩
      | ok rv post =>
          simp only [hp] at h
          have hnd : hasData n = true := by
            cases hh : hasData n with
            | false =>
                have := (processNode_skip_iff n).mpr hh
                rw [hp] at this
                cases this
            | true => rfl
          obtain ⟨h1, tail, h2, h3⟩ := ih (acc ++ [rv]) rs rem h
          refine ⟨h1, rv :: tail, by simp [h2], ?_⟩
          simp [hnd, exceptMap, recOf, hp, h3]
      | err e =>
          simp only [hp] at h
          cases h

/-- C5: when a call of the reader function returned by `transform`
succeeds, its result holds exactly one record per node whose `data` is
neither absent nor empty, in the input order — it equals the per-node
records of the data-carrying nodes — and its length is the number of
data-carrying nodes. -/
theorem transform_one_record_per_data_node (nodes : List Node)
    (rs : List LayerData) (h : transformCall nodes = Except.ok rs) :
    exceptMap recOf (nodes.filter (fun n => hasData n)) = Except.ok rs ∧
      rs.length = (nodes.filter (fun n => hasData n)).length := by
  rcases hfr : fRun nodes [] with ⟨a, b⟩
  have ha : a = Except.ok rs := by
    rw [transformCall, hfr] at h
    exact h
  subst ha
  obtain ⟨h1, tail, h2, h3⟩ := fRun_ok_spec nodes [] rs b hfr
  simp only [List.nil_append] at h2
  subst h2
  exact ⟨h3, exceptMap_length recOf _ rs h3⟩

/-- C10: the reader function returned by `transform` is single-shot:
it closes over the node iterator, so a successful first invocation
exhausts it, and a second invocation of the same function returns the
empty list. -/
theorem transform_reader_single_shot (nodes : List Node) (rs : List LayerData)
    (rem : List Node) (h : fRun nodes [] = (Except.ok rs, rem)) :
    rem = [] ∧ fRun rem [] = (Except.ok ([] : List LayerData), ([] : List Node)) := by
  have h1 := (fRun_ok_spec nodes [] rs rem h).1
  exact ⟨h1, by rw [h1]; rfl⟩

/-- A sample image node: axes `["t","c","y","x"]`, one 1-dimensional data
array, empty display metadata. -/
def sampleImage : Node :=
  { data := Option.some [Tensor.arr [Tensor.scalar 0]], isLabel := false,
    axes := Option.some ["t", "c", "y", "x"], props := Option.none, metadata := [] }

/-- The record `processNode` produces for `sampleImage`. -/
def sampleImageRecord : LayerData :=
  ⟨[Tensor.arr [Tensor.scalar 0]], [("channel_axis", PyVal.int 1)], "image"⟩

example : processNode sampleImage = StepResult.ok sampleImageRecord [] := rfl

theorem transform_reader_single_shot_witness :
    fRun ([] : List Node) [] = (Except.ok ([] : List LayerData), ([] : List Node)) :=
  (transform_reader_single_shot [sampleImage] [sampleImageRecord] [] rfl).2

theorem transform_one_record_per_data_node_witness :
    exceptMap recOf ([sampleImage].filter (fun n => hasData n)) =
      Except.ok [sampleImageRecord] ∧
      (1 : Nat) = ([sampleImage].filter (fun n => hasData n)).length := by
  have h := transform_one_record_per_data_node [sampleImage] [sampleImageRecord] rfl
  exact ⟨h.1, h.2⟩

/-- C8: colormap normalization is idempotent on an already-realized
colormap list: the pass changes no entry of a list whose entries are all
realized colormap objects, so running it twice yields the same list as
running it once. -/
theorem colormap_normalization_idempotent (cs : List PyVal)
    (h : ∀ e ∈ cs, isCM e = true) :
    normCMList cs = Except.ok cs ∧
      (normCMList cs).bind normCMList = normCMList cs := by
  have h1 := normCMList_realized cs h
  refine ⟨h1, ?_⟩
  rw [h1]
  exact h1

theorem colormap_normalization_idempotent_witness :
    normCMList [PyVal.cmapNamed "gray"] = Except.ok [PyVal.cmapNamed "gray"] :=
  (colormap_normalization_idempotent [PyVal.cmapNamed "gray"]
    (by intro e he; rw [List.mem_singleton] at he; subst he; rfl)).1

/-- C9: a path list with more than one entry triggers the
more-than-one-path warning and only the first entry is used: the resolver
is invoked exactly once, with the first path. -/
theorem multi_path_uses_first (parse_url : String → Bool) (p : String)
    (rest : List String) (h : rest ≠ []) :
    ∃ r, napari_get_reader parse_url (PathArg.listOf (p :: rest)) = Except.ok r ∧
      r.warnings = ["more than one path is not currently supported"] ∧
      r.resolverCalls = [p] := by
  have hl : (p :: rest).length > 1 := by
    cases rest with
    | nil => exact absurd rfl h
    | cons a as => simp
  refine ⟨⟨parse_url p, ["more than one path is not currently supported"], [p]⟩,
    ?_, rfl, rfl⟩
  simp [napari_get_reader, hl, h]

theorem multi_path_uses_first_witness :
    (napari_get_reader (fun _ => true) (PathArg.listOf ["p1", "p2"])).map
        (fun r => (r.warnings, r.resolverCalls)) =
      Except.ok (["more than one path is not currently supported"], ["p1"]) := by
  obtain ⟨r, h1, h2, h3⟩ := multi_path_uses_first (fun _ => true) "p1" ["p2"] (by simp)
  rw [h1]
  simp [Except.map, h2, h3]

/-- C6: in the single-channel metadata copy, each recognized display
key present in the node's metadata is bound to element `[0]` of its
value; if that indexing raises, the key is omitted from the output
metadata — the per-key exception is swallowed (the copy is a total
function and never propagates it). -/
theorem single_channel_extraction (nm : Meta) (x : String)
    (hx : x ∈ METADATA_KEYS) (v : PyVal) (hv : dget? nm x = Option.some v) :
    (∀ w, pyIndex0 v = Option.some w →
        dget? (singleChannelCopy nm) x = Option.some w) ∧
      (pyIndex0 v = Option.none → dget? (singleChannelCopy nm) x = Option.none) := by
  have hm := copyFold_mem (fun y => (dget? nm y).bind pyIndex0) METADATA_KEYS x
    METADATA_KEYS_nodup [] hx
  constructor
  · intro w hw
    rw [singleChannelCopy, hm]
    simp [hv, hw]
  · intro hw
    rw [singleChannelCopy, hm]
    simp [hv, hw, dget?]

theorem single_channel_extraction_witness :
    dget? (singleChannelCopy [("name", PyVal.list [PyVal.str "cell"])]) "name" =
      Option.some (PyVal.str "cell") :=
  (single_channel_extraction [("name", PyVal.list [PyVal.str "cell"])] "name"
    (by decide) (PyVal.list [PyVal.str "cell"]) rfl).1 (PyVal.str "cell") rfl

/-- The 5-dimensional label node carrying no `affine` metadata. -/
def label5NoAffine : Node :=
  { data := Option.some
      [Tensor.arr [Tensor.arr [Tensor.arr [Tensor.arr [Tensor.arr [Tensor.scalar 7]]]]]],
    isLabel := true, axes := Option.none, props := Option.none, metadata := [] }

/-- C3: the code contradicts the claim: for a label node whose first
array is 5-dimensional but whose metadata has no `affine` value, line 113
evaluates `metadata["affine"]` unconditionally and raises `KeyError`, so
no record with axis-sliced data arrays is produced at all.  (The parallel
image path guards the same reduction with `metadata.get("affine") is not
None` on line 131, making the unguarded label-path subscript a slip.) -/
theorem label_five_dim_without_affine_raises :
    processNode label5NoAffine = StepResult.err "KeyError: affine" := rfl

/-- C4 counterexample: when a sub-mapping itself uses the key
`"index"`, the `"index"` column is polluted by the second pass: for
`{"a": {"index": 5}}` the result binds `"index"` to `["a", 5]`, which is
not the identifier sequence `["a"]` the claim promises. -/
theorem transform_properties_index_collision :
    transform_properties (Option.some [(PyVal.str "a", [("index", PyVal.int 5)])]) =
      Option.some [("index", [PyVal.str "a", PyVal.int 5])] ∧
      [PyVal.str "a", PyVal.int 5] ≠ [PyVal.str "a"] := by
  refine ⟨rfl, ?_⟩
  intro h
  simp at h

theorem mem_of_eraseIdx {α : Type} :
    ∀ (l : List α) (i : Nat) (a : α), a ∈ l.eraseIdx i → a ∈ l := by
  intro l
  induction l with
  | nil => intro i a h; simp [List.eraseIdx] at h
  | cons x xs ih =>
      intro i a h
      cases i with
      | zero =>
          simp only [List.eraseIdx] at h
          exact List.mem_cons_of_mem _ h
      | succ j =>
          simp only [List.eraseIdx, List.mem_cons] at h
          rcases h with h | h
          · exact h ▸ List.mem_cons_self _ _
          · exact List.mem_cons_of_mem _ (ih j a h)

theorem processNode_multi_channel_axis (n : Node) (d0 : Tensor) (ds : List Tensor)
    (hd : n.data = Option.some (d0 :: ds)) (himg : n.isLabel = false)
    (ca : Nat) (hdet : detectChannel n.axes d0.shape = Except.ok (Option.some ca))
    (rv : LayerData) (post : Meta) (hok : processNode n = StepResult.ok rv post) :
    dget? rv.metadata "channel_axis" = Option.some (PyVal.int (ca : Int)) := by
  unfold processNode at hok
  simp only [hd, himg, Bool.false_eq_true, if_false] at hok
  simp only [hdet] at hok
  cases hg : getNotNone
      (copyKeys n.metadata (dset [] "channel_axis" (PyVal.int (ca : Int)))) "affine" with
  | none =>
      simp only [hg] at hok
      rw [finishStep_ok_meta _ _ _ _ _ _ _ hok "channel_axis" (by decide) (by decide),
        copyKeys_channel_axis, dget_dset_self]
  | some av =>
      simp only [hg] at hok
      cases hr : reduceAffineVal av ca with
      | error e => simp only [hr] at hok; cases hok
      | ok av' =>
          simp only [hr] at hok
          rw [finishStep_ok_meta _ _ _ _ _ _ _ hok "channel_axis" (by decide) (by decide),
            dget_dset_ne _ _ _ _ (by decide), copyKeys_channel_axis, dget_dset_self]

theorem processNode_single_channel (n : Node) (d0 : Tensor) (ds : List Tensor)
    (hd : n.data = Option.some (d0 :: ds)) (himg : n.isLabel = false)
    (hdet : detectChannel n.axes d0.shape = Except.ok Option.none)
    (rv : LayerData) (post : Meta) (hok : processNode n = StepResult.ok rv post) :
    finishStep n (singleChannelCopy n.metadata) (d0 :: ds) "image" false =
      StepResult.ok rv post := by
  unfold processNode at hok
  simp only [hd, himg, Bool.false_eq_true, if_false] at hok
  simp only [hdet] at hok
  exact hok

/-- C1: channel-axis determination for image nodes: with an `axes`
sequence containing `"c"`, the output `channel_axis` is the position of
`"c"` in it; with no `axes` key and a first-array extent of 1 at the
fixed legacy index `CHANNEL_DIMENSION`, the output has no `channel_axis`
key; with no `axes` key and an extent above 1 there, `channel_axis` is
`CHANNEL_DIMENSION`. -/
theorem image_channel_axis (n : Node) (d0 : Tensor) (ds : List Tensor)
    (hd : n.data = Option.some (d0 :: ds)) (himg : n.isLabel = false)
    (rv : LayerData) (post : Meta) (hok : processNode n = StepResult.ok rv post) :
    (∀ ax, n.axes = Option.some ax → "c" ∈ ax →
        dget? rv.metadata "channel_axis" =
          Option.some (PyVal.int ((ax.findIdx (fun s => s = "c") : Nat) : Int))) ∧
      (n.axes = Option.none → d0.shape.get? CHANNEL_DIMENSION = Option.some 1 →
        dget? rv.metadata "channel_axis" = Option.none) ∧
      (∀ s, n.axes = Option.none → d0.shape.get? CHANNEL_DIMENSION = Option.some s →
        1 < s →
        dget? rv.metadata "channel_axis" =
          Option.some (PyVal.int ((CHANNEL_DIMENSION : Nat) : Int))) := by
  refine ⟨?_, ?_, ?_⟩
  · intro ax hax hc
    exact processNode_multi_channel_axis n d0 ds hd himg _
      (by simp [detectChannel, hax, hc]) rv post hok
  · intro hax hs
    have hstep := processNode_single_channel n d0 ds hd himg
      (by simp only [detectChannel, hax]; rw [hs]; simp) rv post hok
    rw [finishStep_ok_meta _ _ _ _ _ _ _ hstep "channel_axis" (by decide) (by decide),
      singleChannelCopy_channel_axis]
  · intro s hax hs hs1
    exact processNode_multi_channel_axis n d0 ds hd himg CHANNEL_DIMENSION
      (by simp only [detectChannel, hax]; rw [hs]; simp [hs1]) rv post hok

theorem image_channel_axis_witness :
    dget? sampleImageRecord.metadata "channel_axis" = Option.some (PyVal.int 1) :=
  (image_channel_axis sampleImage (Tensor.arr [Tensor.scalar 0]) [] rfl rfl
    sampleImageRecord [] rfl).1 ["t", "c", "y", "x"] rfl (by decide)

/-- C2: for an image node with a determined channel axis `ca`, the
output metadata binds `channel_axis` to `ca`; a present `affine` matrix
is necessarily 6×6 (anything else raises) and is replaced by the matrix
with row and column `ca` deleted, a 5×5 matrix; when no `affine` value is
present, no reduction is attempted and the output simply carries no
`affine` — the transform does not fail on that account. -/
theorem image_multi_channel_output (n : Node) (d0 : Tensor) (ds : List Tensor)
    (hd : n.data = Option.some (d0 :: ds)) (himg : n.isLabel = false)
    (ca : Nat) (hdet : detectChannel n.axes d0.shape = Except.ok (Option.some ca))
    (rv : LayerData) (post : Meta) (hok : processNode n = StepResult.ok rv post) :
    dget? rv.metadata "channel_axis" = Option.some (PyVal.int (ca : Int)) ∧
      (∀ m, dget? n.metadata "affine" = Option.some (PyVal.mat m) →
        m.length = 6 ∧ (∀ r ∈ m, r.length = 6) ∧ ca < 6 ∧
          dget? rv.metadata "affine" =
            Option.some (PyVal.mat ((m.eraseIdx ca).map (fun r => r.eraseIdx ca))) ∧
          (m.eraseIdx ca).length = 5 ∧
          (∀ r ∈ (m.eraseIdx ca).map (fun r => r.eraseIdx ca), r.length = 5)) ∧
      (dget? n.metadata "affine" = Option.none →
        dget? rv.metadata "affine" = Option.none) := by
  refine ⟨processNode_multi_channel_axis n d0 ds hd himg ca hdet rv post hok, ?_, ?_⟩
  · intro m hm
    unfold processNode at hok
    simp only [hd, himg, Bool.false_eq_true, if_false] at hok
    simp only [hdet] at hok
    have hmd : dget? (copyKeys n.metadata (dset [] "channel_axis" (PyVal.int (ca : Int))))
        "affine" = Option.some (PyVal.mat m) := by
      rw [copyKeys_affine, hm]
    have hg : getNotNone
        (copyKeys n.metadata (dset [] "channel_axis" (PyVal.int (ca : Int))))
        "affine" = Option.some (PyVal.mat m) := by
      simp [getNotNone, hmd]
    simp only [hg] at hok
    cases hr : reduceAffineVal (PyVal.mat m) ca with
    | error e => simp only [hr] at hok; cases hok
    | ok av' =>
        simp only [hr] at hok
        obtain ⟨hca, h6, hrows, hav⟩ := reduceAffineVal_mat_ok m ca av' hr
        subst hav
        refine ⟨h6, hrows, hca, ?_, ?_, ?_⟩
        · rw [finishStep_ok_meta _ _ _ _ _ _ _ hok "affine" (by decide) (by decide),
            dget_dset_self]
        · have hlt : ca < m.length := by rw [h6]; exact hca
          have h1 := List.length_eraseIdx_add_one hlt
          omega
        · intro r hrm
          obtain ⟨r0, hr0, hr0e⟩ := List.mem_map.mp hrm
          have hr0m : r0 ∈ m := mem_of_eraseIdx m ca r0 hr0
          have hlen := hrows r0 hr0m
          have hlt : ca < r0.length := by rw [hlen]; exact hca
          have h1 := List.length_eraseIdx_add_one hlt
          rw [← hr0e]
          omega
  · intro hm
    unfold processNode at hok
    simp only [hd, himg, Bool.false_eq_true, if_false] at hok
    simp only [hdet] at hok
    have hmd : dget? (copyKeys n.metadata (dset [] "channel_axis" (PyVal.int (ca : Int))))
        "affine" = Option.none := by
      rw [copyKeys_affine, hm]
      show dget? (dset [] "channel_axis" (PyVal.int (ca : Int))) "affine" = Option.none
      rw [dget_dset_ne _ _ _ _ (by decide)]
      rfl
    have hg : getNotNone
        (copyKeys n.metadata (dset [] "channel_axis" (PyVal.int (ca : Int))))
        "affine" = Option.none := by
      simp [getNotNone, hmd]
    simp only [hg] at hok
    rw [finishStep_ok_meta _ _ _ _ _ _ _ hok "affine" (by decide) (by decide), hmd]

/-- A 6×6 affine matrix. -/
def aff6 : PyVal :=
  PyVal.mat [[1, 0, 0, 0, 0, 0], [0, 2, 0, 0, 0, 0], [0, 0, 3, 0, 0, 0],
             [0, 0, 0, 4, 0, 0], [0, 0, 0, 0, 5, 0], [0, 0, 0, 0, 0, 6]]

/-- A multi-channel image node carrying a 6×6 affine. -/
def sampleImageAffine : Node :=
  { data := Option.some [Tensor.arr [Tensor.scalar 0]], isLabel := false,
    axes := Option.some ["c", "y", "x"], props := Option.none,
    metadata := [("affine", aff6)] }

/-- The record `processNode` produces for `sampleImageAffine`. -/
def sampleImageAffineRecord : LayerData :=
  ⟨[Tensor.arr [Tensor.scalar 0]],
   [("channel_axis", PyVal.int 0),
    ("affine", PyVal.mat [[2, 0, 0, 0, 0], [0, 3, 0, 0, 0], [0, 0, 4, 0, 0],
                          [0, 0, 0, 5, 0], [0, 0, 0, 0, 6]])],
   "image"⟩

example : processNode sampleImageAffine =
    StepResult.ok sampleImageAffineRecord [("affine", aff6)] := rfl

theorem image_multi_channel_output_witness :
    dget? sampleImageAffineRecord.metadata "affine" =
      Option.some (PyVal.mat [[2, 0, 0, 0, 0], [0, 3, 0, 0, 0], [0, 0, 4, 0, 0],
                              [0, 0, 0, 5, 0], [0, 0, 0, 0, 6]]) :=
  ((image_multi_channel_output sampleImageAffine (Tensor.arr [Tensor.scalar 0]) []
    rfl rfl 0 rfl sampleImageAffineRecord [("affine", aff6)] rfl).2.1
    [[1, 0, 0, 0, 0, 0], [0, 2, 0, 0, 0, 0], [0, 0, 3, 0, 0, 0],
     [0, 0, 0, 4, 0, 0], [0, 0, 0, 0, 5, 0], [0, 0, 0, 0, 0, 6]] rfl).2.2.2.1

theorem processNode_ok_finish (n : Node) (rv : LayerData) (post : Meta)
    (h : processNode n = StepResult.ok rv post) :
    ∃ md data lt aw, finishStep n md data lt aw = StepResult.ok rv post ∧
      ((aw = true ∧ dget? md "colormap" = dget? n.metadata "colormap") ∨
        (aw = false ∧
          dget? md "colormap" = (dget? n.metadata "colormap").bind pyIndex0)) := by
  unfold processNode at h
  repeat' split at h
  all_goals first
    | cases h
    | refine ⟨_, _, _, _, h, ?_⟩
  all_goals
    first
      | exact Or.inr ⟨rfl, singleChannelCopy_colormap _⟩
      | · refine Or.inl ⟨rfl, ?_⟩
          try rw [dget_dset_ne _ _ _ _ (show ("colormap" : String) ≠ "affine" by decide)]
          rw [copyKeys_colormap_eq]
          rfl

theorem finishStep_post_realized (n : Node) (md : Meta) (data : List Tensor)
    (lt : String) (aw : Bool) (rv : LayerData) (post : Meta)
    (h : finishStep n md data lt aw = StepResult.ok rv post)
    (halias : (aw = true ∧ dget? md "colormap" = dget? n.metadata "colormap") ∨
      (aw = false ∧ dget? md "colormap" = (dget? n.metadata "colormap").bind pyIndex0))
    (cs : List PyVal)
    (hcm : dget? n.metadata "colormap" = Option.some (PyVal.list cs))
    (hall : ∀ e ∈ cs, isCM e = true) : post = n.metadata := by
  rcases halias with ⟨haw, hmdc⟩ | ⟨haw, hmdc⟩
  · subst haw
    rw [hcm] at hmdc
    have hnorm : normalizeCMVal (PyVal.list cs) = Except.ok (PyVal.list cs) := by
      simp [normalizeCMVal, normCMList_realized cs hall, Except.map]
    have hpost : finishPost n true (PyVal.list cs) = n.metadata := by
      rw [finishPost, hcm]
      simp only [if_true]
      exact dset_same_value _ _ _ hcm
    unfold finishStep at h
    simp only [hmdc, hnorm] at h
    cases hp : transform_properties n.props with
    | none => simp only [hp] at h; cases h; exact hpost
    | some cols => simp only [hp] at h; cases h; exact hpost
  · subst haw
    rw [hcm] at hmdc
    cases cs with
    | nil =>
        have hmdc2 : dget? md "colormap" = Option.none := hmdc.trans rfl
        unfold finishStep at h
        simp only [hmdc2] at h
        cases hp : transform_properties n.props with
        | none => simp only [hp] at h; cases h; rfl
        | some cols => simp only [hp] at h; cases h; rfl
    | cons e es =>
        have he : isCM e = true := hall e (List.mem_cons_self e es)
        have hnorm : normalizeCMVal e =
            Except.error "TypeError: colormap value is not iterable" := by
          cases e <;> first | rfl | simp [isCM] at he
        have hmdc2 : dget? md "colormap" = Option.some e := hmdc.trans rfl
        unfold finishStep at h
        simp only [hmdc2] at h
        rw [hnorm] at h
        simp at h

/-- C7 (amended): after a successful per-node transform, the node's
metadata is unchanged at every key other than `colormap` — in particular
it is entirely unchanged when the node has no colormap or when every
entry of its colormap list is already a realized colormap object.  (The
normalization loop does mutate the node's stored colormap entries in
place when they are not yet realized; see the counterexample.) -/
theorem node_metadata_frame (n : Node) (rv : LayerData) (post : Meta)
    (hok : processNode n = StepResult.ok rv post) :
    (∀ k, k ≠ "colormap" → dget? post k = dget? n.metadata k) ∧
      (dget? n.metadata "colormap" = Option.none → post = n.metadata) ∧
      (∀ cs, dget? n.metadata "colormap" = Option.some (PyVal.list cs) →
        (∀ e ∈ cs, isCM e = true) → post = n.metadata) := by
  obtain ⟨md, data, lt, aw, hfin, halias⟩ := processNode_ok_finish n rv post hok
  obtain ⟨h1, h2⟩ := finishStep_post_frame n md data lt aw rv post hfin
  exact ⟨h1, h2, fun cs hcm hall =>
    finishStep_post_realized n md data lt aw rv post hfin halias cs hcm hall⟩

theorem node_metadata_frame_witness :
    dget? ([] : Meta) "name" = dget? sampleImage.metadata "name" :=
  (node_metadata_frame sampleImage sampleImageRecord [] rfl).1 "name" (by decide)

/-- A multi-channel image node whose colormap list holds the plain string
`"reds"` — a name registered in vispy's colormap registry, so
`get_colormap("reds")` succeeds and the item assignment is reached. -/
def sampleImageStrCM : Node :=
  { data := Option.some [Tensor.arr [Tensor.scalar 0]], isLabel := false,
    axes := Option.some ["c", "y", "x"], props := Option.none,
    metadata := [("colormap", PyVal.list [PyVal.str "reds"])] }

/-- C7 counterexample: the normalization loop's `cms[idx] = ...`
writes into the node's own colormap list (the copy loop on line 130
copies the reference): after a successful transform of a node whose
colormap is `["reds"]` (a registered vispy colormap name, so the lookup
succeeds and the assignment is reached), the node's stored colormap has
become `[get_colormap("reds")]` — a stored metadata value was mutated. -/
theorem node_colormap_mutated :
    processNode sampleImageStrCM =
      StepResult.ok
        ⟨[Tensor.arr [Tensor.scalar 0]],
         [("channel_axis", PyVal.int 0),
          ("colormap", PyVal.list [PyVal.cmapNamed "reds"])],
         "image"⟩
        [("colormap", PyVal.list [PyVal.cmapNamed "reds"])] ∧
      dget? [("colormap", PyVal.list [PyVal.cmapNamed "reds"])] "colormap" ≠
        dget? sampleImageStrCM.metadata "colormap" := by
  refine ⟨rfl, ?_⟩
  intro h
  simp [sampleImageStrCM, dget?] at h

theorem dset_mem_keys {α : Type} (d : List (String × α)) (k k' : String) (v : α) :
    k' ∈ (dset d k v).map Prod.fst ↔ (k' ∈ d.map Prod.fst ∨ k' = k) := by
  rw [dset_keys]
  by_cases hm : k ∈ d.map Prod.fst
  · rw [if_pos hm]
    constructor
    · exact Or.inl
    · intro h
      rcases h with h | h
      · exact h
      · exact h ▸ hm
  · rw [if_neg hm]
    simp

theorem dset_nodup_keys {α : Type} (d : List (String × α)) (k : String) (v : α)
    (h : (d.map Prod.fst).Nodup) : ((dset d k v).map Prod.fst).Nodup := by
  rw [dset_keys]
  by_cases hm : k ∈ d.map Prod.fst
  · rw [if_pos hm]; exact h
  · rw [if_neg hm]
    simp [List.nodup_append, h, hm]

theorem dset_keys_of_mem {α : Type} (d : List (String × α)) (k : String) (v : α)
    (h : k ∈ d.map Prod.fst) : (dset d k v).map Prod.fst = d.map Prod.fst := by
  rw [dset_keys, if_pos h]

theorem dset_mem_val {α : Type} :
    ∀ (d : List (String × α)) (k : String) (v : α) (kv : String × α),
    kv ∈ dset d k v → kv ∈ d ∨ kv.2 = v := by
  intro d
  induction d with
  | nil =>
      intro k v kv h
      simp [dset] at h
      exact Or.inr (by rw [h])
  | cons kv0 rest ih =>
      intro k v kv h
      obtain ⟨k0, v0⟩ := kv0
      by_cases h0 : k0 = k
      · simp only [dset, if_pos h0, List.mem_cons] at h
        rcases h with h | h
        · exact Or.inr (by rw [h])
        · exact Or.inl (List.mem_cons_of_mem _ h)
      · simp only [dset, if_neg h0, List.mem_cons] at h
        rcases h with h | h
        · exact Or.inl (by rw [h]; exact List.mem_cons_self _ _)
        · rcases ih k v kv h with h2 | h2
          · exact Or.inl (List.mem_cons_of_mem _ h2)
          · exact Or.inr h2

theorem dget_some_of_mem_keys {α : Type} :
    ∀ (d : List (String × α)) (k : String), k ∈ d.map Prod.fst →
      ∃ v, dget? d k = Option.some v := by
  intro d
  induction d with
  | nil => intro k h; simp at h
  | cons kv rest ih =>
      intro k h
      obtain ⟨k0, v0⟩ := kv
      by_cases h0 : k0 = k
      · exact ⟨v0, by simp [dget?, h0]⟩
      · have hr : k ∈ rest.map Prod.fst := by
          simp only [List.map_cons, List.mem_cons] at h
          rcases h with h | h
          · exact absurd h.symm h0
          · exact h
        obtain ⟨v, hv⟩ := ih k hr
        exact ⟨v, by simp [dget?, h0, hv]⟩

theorem dget_mem {α : Type} :
    ∀ (d : List (String × α)) (k : String) (v : α),
      dget? d k = Option.some v → (k, v) ∈ d := by
  intro d
  induction d with
  | nil => intro k v h; simp [dget?] at h
  | cons kv rest ih =>
      intro k v h
      obtain ⟨k0, v0⟩ := kv
      by_cases h0 : k0 = k
      · simp only [dget?, if_pos h0] at h
        cases h
        exact h0 ▸ List.mem_cons_self _ _
      · simp only [dget?, if_neg h0] at h
        exact List.mem_cons_of_mem _ (ih k v h)

theorem dget_of_mem_nodup {α : Type} :
    ∀ (d : List (String × α)), (d.map Prod.fst).Nodup →
      ∀ kv ∈ d, dget? d kv.1 = Option.some kv.2 := by
  intro d
  induction d with
  | nil => intro _ kv h; cases h
  | cons kv0 rest ih =>
      intro hnd kv h
      obtain ⟨k0, v0⟩ := kv0
      simp only [List.map_cons, List.nodup_cons] at hnd
      rcases List.mem_cons.mp h with h | h
      · rw [h]
        simp [dget?]
      · have hk : kv.1 ∈ rest.map Prod.fst := List.mem_map_of_mem Prod.fst h
        have hne : ¬ k0 = kv.1 := fun hh => hnd.1 (hh ▸ hk)
        simp only [dget?, if_neg hne]
        exact ih hnd.2 kv h

/-- The inner loop of the first pass of `transform_properties`
(lines 70-72): create an empty list for every key of one sub-dict. -/
def propAccumulate (pd : List (String × PyVal)) (d : List (String × List PyVal)) :
    List (String × List PyVal) :=
  pd.foldl (fun d kv => dset d kv.1 []) d

/-- The first pass of `transform_properties` (lines 69-72). -/
def propKeysPass (ps : List (PyVal × List (String × PyVal))) :
    List (String × List PyVal) :=
  ps.foldl (fun d p => propAccumulate p.2 d) []

theorem propAccumulate_mem :
    ∀ (pd : List (String × PyVal)) (d : List (String × List PyVal)) (k : String),
    k ∈ (propAccumulate pd d).map Prod.fst ↔
      (k ∈ d.map Prod.fst ∨ ∃ kv ∈ pd, kv.1 = k) := by
  intro pd
  induction pd with
  | nil => intro d k; simp [propAccumulate]
  | cons kv0 rest ih =>
      intro d k
      rw [show propAccumulate (kv0 :: rest) d = propAccumulate rest (dset d kv0.1 [])
        from rfl]
      rw [ih, dset_mem_keys]
      simp only [List.mem_cons]
      constructor
      · intro h
        rcases h with (h | h) | ⟨kv, hkv, hke⟩
        · exact Or.inl h
        · exact Or.inr ⟨kv0, Or.inl rfl, h.symm⟩
        · exact Or.inr ⟨kv, Or.inr hkv, hke⟩
      · intro h
        rcases h with h | ⟨kv, hkv, hke⟩
        · exact Or.inl (Or.inl h)
        · rcases hkv with hkv | hkv
          · exact Or.inl (Or.inr (by rw [← hke, hkv]))
          · exact Or.inr ⟨kv, hkv, hke⟩

theorem propAccumulate_nodup :
    ∀ (pd : List (String × PyVal)) (d : List (String × List PyVal)),
    (d.map Prod.fst).Nodup → ((propAccumulate pd d).map Prod.fst).Nodup := by
  intro pd
  induction pd with
  | nil => intro d h; exact h
  | cons kv0 rest ih =>
      intro d h
      exact ih _ (dset_nodup_keys d kv0.1 [] h)

theorem propAccumulate_vals :
    ∀ (pd : List (String × PyVal)) (d : List (String × List PyVal)),
    (∀ kv ∈ d, kv.2 = ([] : List PyVal)) →
      ∀ kv ∈ propAccumulate pd d, kv.2 = [] := by
  intro pd
  induction pd with
  | nil => intro d h; exact h
  | cons kv0 rest ih =>
      intro d h
      refine ih _ ?_
      intro kv hkv
      rcases dset_mem_val d kv0.1 [] kv hkv with h2 | h2
      · exact h kv h2
      · exact h2

theorem propKeysPass_aux_mem :
    ∀ (ps : List (PyVal × List (String × PyVal))) (d : List (String × List PyVal))
      (k : String),
    k ∈ ((ps.foldl (fun d p => propAccumulate p.2 d) d).map Prod.fst) ↔
      (k ∈ d.map Prod.fst ∨ ∃ p ∈ ps, ∃ kv ∈ p.2, kv.1 = k) := by
  intro ps
  induction ps with
  | nil => intro d k; simp
  | cons p rest ih =>
      intro d k
      rw [show (p :: rest).foldl (fun d p => propAccumulate p.2 d) d =
        rest.foldl (fun d p => propAccumulate p.2 d) (propAccumulate p.2 d) from rfl]
      rw [ih, propAccumulate_mem]
      simp only [List.mem_cons]
      constructor
      · intro h
        rcases h with (h | ⟨kv, hkv, hke⟩) | ⟨q, hq, hkv⟩
        · exact Or.inl h
        · exact Or.inr ⟨p, Or.inl rfl, kv, hkv, hke⟩
        · exact Or.inr ⟨q, Or.inr hq, hkv⟩
      · intro h
        rcases h with h | ⟨q, hq, kv, hkv, hke⟩
        · exact Or.inl (Or.inl h)
        · rcases hq with hq | hq
          · exact Or.inl (Or.inr ⟨kv, by rw [← hq]; exact hkv, hke⟩)
          · exact Or.inr ⟨q, hq, kv, hkv, hke⟩

theorem propKeysPass_aux_nodup :
    ∀ (ps : List (PyVal × List (String × PyVal))) (d : List (String × List PyVal)),
    (d.map Prod.fst).Nodup →
      ((ps.foldl (fun d p => propAccumulate p.2 d) d).map Prod.fst).Nodup := by
  intro ps
  induction ps with
  | nil => intro d h; exact h
  | cons p rest ih => intro d h; exact ih _ (propAccumulate_nodup p.2 d h)

theorem propKeysPass_aux_vals :
    ∀ (ps : List (PyVal × List (String × PyVal))) (d : List (String × List PyVal)),
    (∀ kv ∈ d, kv.2 = ([] : List PyVal)) →
      ∀ kv ∈ ps.foldl (fun d p => propAccumulate p.2 d) d, kv.2 = [] := by
  intro ps
  induction ps with
  | nil => intro d h; exact h
  | cons p rest ih => intro d h; exact ih _ (propAccumulate_vals p.2 d h)

/-- One iteration of the second pass of `transform_properties`
(lines 77-81): append the label id to `"index"`, then append
`props_dict.get(key, None)` to every key column. -/
def phase2step (keys : List String) (d : List (String × List PyVal))
    (p : PyVal × List (String × PyVal)) : List (String × List PyVal) :=
  keys.foldl (fun d k => dset d k (((dget? d k).getD []) ++ [pget p.2 k]))
    (dset d "index" (((dget? d "index").getD []) ++ [p.1]))

theorem updFold_not_mem (p2 : List (String × PyVal)) :
    ∀ (keys : List String) (d : List (String × List PyVal)) (k : String), k ∉ keys →
    dget? (keys.foldl
      (fun d k' => dset d k' (((dget? d k').getD []) ++ [pget p2 k'])) d) k =
      dget? d k := by
  intro keys
  induction keys with
  | nil => intro d k _; rfl
  | cons x xs ih =>
      intro d k hk
      have hx : k ≠ x := fun hh => hk (hh ▸ List.mem_cons_self x xs)
      have hxs : k ∉ xs := fun hh => hk (List.mem_cons_of_mem _ hh)
      rw [show (x :: xs).foldl
          (fun d k' => dset d k' (((dget? d k').getD []) ++ [pget p2 k'])) d =
        xs.foldl (fun d k' => dset d k' (((dget? d k').getD []) ++ [pget p2 k']))
          (dset d x (((dget? d x).getD []) ++ [pget p2 x])) from rfl]
      rw [ih _ k hxs, dget_dset_ne _ _ _ _ hx]

theorem updFold_mem (p2 : List (String × PyVal)) :
    ∀ (keys : List String), keys.Nodup →
      ∀ (d : List (String × List PyVal)) (k : String), k ∈ keys →
    dget? (keys.foldl
      (fun d k' => dset d k' (((dget? d k').getD []) ++ [pget p2 k'])) d) k =
      Option.some (((dget? d k).getD []) ++ [pget p2 k]) := by
  intro keys
  induction keys with
  | nil => intro _ d k hk; cases hk
  | cons x xs ih =>
      intro hnd d k hk
      have hpair := List.nodup_cons.mp hnd
      rw [show (x :: xs).foldl
          (fun d k' => dset d k' (((dget? d k').getD []) ++ [pget p2 k'])) d =
        xs.foldl (fun d k' => dset d k' (((dget? d k').getD []) ++ [pget p2 k']))
          (dset d x (((dget? d x).getD []) ++ [pget p2 x])) from rfl]
      rcases List.mem_cons.mp hk with h | h
      · subst h
        rw [updFold_not_mem p2 xs _ k hpair.1, dget_dset_self]
      · have hne : k ≠ x := fun hh => hpair.1 (hh ▸ h)
        rw [ih hpair.2 _ k h, dget_dset_ne _ _ _ _ hne]

theorem updFold_keys (p2 : List (String × PyVal)) :
    ∀ (keys : List String) (d : List (String × List PyVal)),
      (∀ k ∈ keys, k ∈ d.map Prod.fst) →
    (keys.foldl
      (fun d k' => dset d k' (((dget? d k').getD []) ++ [pget p2 k'])) d).map
        Prod.fst = d.map Prod.fst := by
  intro keys
  induction keys with
  | nil => intro d _; rfl
  | cons x xs ih =>
      intro d hsub
      rw [show (x :: xs).foldl
          (fun d k' => dset d k' (((dget? d k').getD []) ++ [pget p2 k'])) d =
        xs.foldl (fun d k' => dset d k' (((dget? d k').getD []) ++ [pget p2 k']))
          (dset d x (((dget? d x).getD []) ++ [pget p2 x])) from rfl]
      have hx : x ∈ d.map Prod.fst := hsub x (List.mem_cons_self x xs)
      have hkeq := dset_keys_of_mem d x (((dget? d x).getD []) ++ [pget p2 x]) hx
      rw [ih _ (by intro k hk; rw [hkeq]; exact hsub k (List.mem_cons_of_mem _ hk)),
        hkeq]

theorem phase2_spec (keys : List String) (hnd : keys.Nodup)
    (hix : "index" ∉ keys) :
    ∀ (ps : List (PyVal × List (String × PyVal)))
      (d : List (String × List PyVal)) (iv : List PyVal),
    dget? d "index" = Option.some iv →
    (∀ k ∈ keys, k ∈ d.map Prod.fst) →
    dget? (ps.foldl (phase2step keys) d) "index" =
        Option.some (iv ++ ps.map Prod.fst) ∧
      (∀ k ∈ keys, dget? (ps.foldl (phase2step keys) d) k =
        Option.some (((dget? d k).getD []) ++ ps.map (fun p => pget p.2 k))) ∧
      (ps.foldl (phase2step keys) d).map Prod.fst = d.map Prod.fst := by
  intro ps
  induction ps with
  | nil =>
      intro d iv hiv hsub
      refine ⟨by simpa using hiv, ?_, rfl⟩
      intro k hk
      obtain ⟨v, hv⟩ := dget_some_of_mem_keys d k (hsub k hk)
      simp [hv]
  | cons p rest ih =>
      intro d iv hiv hsub
      rw [show (p :: rest).foldl (phase2step keys) d =
        rest.foldl (phase2step keys) (phase2step keys d p) from rfl]
      have hidxmem : "index" ∈ d.map Prod.fst :=
        List.mem_map_of_mem Prod.fst (dget_mem d "index" iv hiv)
      have hstep_idx : dget? (phase2step keys d p) "index" =
          Option.some (iv ++ [p.1]) := by
        rw [phase2step, updFold_not_mem _ _ _ _ hix, dget_dset_self, hiv]
        rfl
      have hstep_keys : (phase2step keys d p).map Prod.fst = d.map Prod.fst := by
        rw [phase2step, updFold_keys]
        · exact dset_keys_of_mem _ _ _ hidxmem
        · intro k hk
          rw [dset_keys_of_mem _ _ _ hidxmem]
          exact hsub k hk
      have hstep_col : ∀ k ∈ keys, dget? (phase2step keys d p) k =
          Option.some (((dget? d k).getD []) ++ [pget p.2 k]) := by
        intro k hk
        have hne : k ≠ "index" := fun hh => hix (hh ▸ hk)
        rw [phase2step, updFold_mem _ _ hnd _ _ hk, dget_dset_ne _ _ _ _ hne]
      have hsub' : ∀ k ∈ keys, k ∈ (phase2step keys d p).map Prod.fst := by
        intro k hk
        rw [hstep_keys]
        exact hsub k hk
      obtain ⟨ih1, ih2, ih3⟩ :=
        ih (phase2step keys d p) (iv ++ [p.1]) hstep_idx hsub'
      refine ⟨?_, ?_, ih3.trans hstep_keys⟩
      · rw [ih1]
        simp
      · intro k hk
        rw [ih2 k hk, hstep_col k hk]
        simp

/-- C4 (amended): for a non-absent properties mapping none of whose
sub-mappings uses the reserved key `"index"`, the reshaped result binds
`"index"` to the object identifiers in input insertion order, binds every
key occurring in any sub-mapping to its column of per-object lookups
(an object's missing key filled with the explicit `None` marker), and
every value sequence in the result (including `"index"`) has length equal
to the number of objects; an absent input gives an absent result, and the
spec's example evaluates exactly as stated. -/
theorem transform_properties_columnar (ps : List (PyVal × List (String × PyVal)))
    (hidx : ∀ p ∈ ps, ∀ kv ∈ p.2, kv.1 ≠ "index") :
    ∃ d, transform_properties (Option.some ps) = Option.some d ∧
      dget? d "index" = Option.some (ps.map Prod.fst) ∧
      (∀ k, (∃ p ∈ ps, ∃ kv ∈ p.2, kv.1 = k) →
        dget? d k = Option.some (ps.map (fun p => pget p.2 k))) ∧
      (∀ kv ∈ d, kv.2.length = ps.length) ∧
      transform_properties Option.none = Option.none ∧
      transform_properties (Option.some
          [(PyVal.str "a", [("x", PyVal.int 1), ("y", PyVal.int 2)]),
           (PyVal.str "b", [("x", PyVal.int 3)])]) =
        Option.some
          [("x", [PyVal.int 1, PyVal.int 3]),
           ("y", [PyVal.int 2, PyVal.none]),
           ("index", [PyVal.str "a", PyVal.str "b"])] := by
  have hnd0 : ((propKeysPass ps).map Prod.fst).Nodup :=
    propKeysPass_aux_nodup ps [] (by simp)
  have hmem0 : ∀ k, k ∈ (propKeysPass ps).map Prod.fst ↔
      ∃ p ∈ ps, ∃ kv ∈ p.2, kv.1 = k := by
    intro k
    have h := propKeysPass_aux_mem ps [] k
    simpa [propKeysPass] using h
  have hix0 : "index" ∉ (propKeysPass ps).map Prod.fst := by
    rw [hmem0]
    rintro ⟨p, hp, kv, hkv, hke⟩
    exact hidx p hp kv hkv hke
  have hd1idx : dget? (dset (propKeysPass ps) "index" ([] : List PyVal)) "index" =
      Option.some [] := dget_dset_self _ _ _
  have hsub : ∀ k ∈ (propKeysPass ps).map Prod.fst,
      k ∈ (dset (propKeysPass ps) "index" ([] : List PyVal)).map Prod.fst := by
    intro k hk
    rw [dset_mem_keys]
    exact Or.inl hk
  obtain ⟨hidxcol, hcols, hkeys⟩ := phase2_spec ((propKeysPass ps).map Prod.fst)
    hnd0 hix0 ps (dset (propKeysPass ps) "index" []) [] hd1idx hsub
  have hidxcol' : dget? (ps.foldl (phase2step ((propKeysPass ps).map Prod.fst))
      (dset (propKeysPass ps) "index" [])) "index" =
      Option.some (ps.map Prod.fst) := by simpa using hidxcol
  have hcolfun : ∀ k, k ∈ (propKeysPass ps).map Prod.fst →
      dget? (ps.foldl (phase2step ((propKeysPass ps).map Prod.fst))
        (dset (propKeysPass ps) "index" [])) k =
      Option.some (ps.map (fun p => pget p.2 k)) := by
    intro k hk
    have hcol := hcols k hk
    have hne : k ≠ "index" := fun hh => hix0 (hh ▸ hk)
    obtain ⟨v, hv⟩ := dget_some_of_mem_keys _ k hk
    have hvnil : v = [] := propKeysPass_aux_vals ps []
      (by intro kv h; cases h) (k, v) (dget_mem _ _ _ hv)
    rw [hcol, dget_dset_ne _ _ _ _ hne, hv, hvnil]
    simp
  refine ⟨ps.foldl (phase2step ((propKeysPass ps).map Prod.fst))
      (dset (propKeysPass ps) "index" []), rfl, hidxcol', ?_, ?_, rfl, rfl⟩
  · intro k hksub
    exact hcolfun k ((hmem0 k).mpr hksub)
  · intro kv hkv
    have hndres : ((ps.foldl (phase2step ((propKeysPass ps).map Prod.fst))
        (dset (propKeysPass ps) "index" [])).map Prod.fst).Nodup := by
      rw [hkeys]
      exact dset_nodup_keys _ _ _ hnd0
    have hg := dget_of_mem_nodup _ hndres kv hkv
    have hkmem := List.mem_map_of_mem Prod.fst hkv
    rw [hkeys, dset_mem_keys] at hkmem
    rcases hkmem with hmem | hkeq
    · have h2 := (hcolfun kv.1 hmem).symm.trans hg
      have hkv2 : kv.2 = ps.map (fun p => pget p.2 kv.1) := (Option.some.inj h2).symm
      rw [hkv2, List.length_map]
    · rw [hkeq] at hg
      have h2 := hidxcol'.symm.trans hg
      have hkv2 : kv.2 = ps.map Prod.fst := (Option.some.inj h2).symm
      rw [hkv2, List.length_map]

theorem transform_properties_columnar_witness :
    dget? [("x", [PyVal.int 1, PyVal.int 3]), ("y", [PyVal.int 2, PyVal.none]),
           ("index", [PyVal.str "a", PyVal.str "b"])] "index" =
      Option.some [PyVal.str "a", PyVal.str "b"] := by
  obtain ⟨d, h1, h2, _⟩ := transform_properties_columnar
    [(PyVal.str "a", [("x", PyVal.int 1), ("y", PyVal.int 2)]),
     (PyVal.str "b", [("x", PyVal.int 3)])]
    (by decide)
  have hD : d = [("x", [PyVal.int 1, PyVal.int 3]), ("y", [PyVal.int 2, PyVal.none]),
      ("index", [PyVal.str "a", PyVal.str "b"])] :=
    Option.some.inj (h1.symm.trans rfl)
  exact hD ▸ h2
